import Mathlib

/-!
# Verification of the beautiful-mermaid-studio client core

A shallow embedding, in Lean 4, of the client-side session engine of the
beautiful-mermaid-studio repository:

* the share-link codec (`encodeDiagramToken` / `decodeDiagramToken` and the
  URL helpers `readDiagramTokenFromUrl` / `writeDiagramTokenToUrl`),
* the interactive viewport controller (`applyZoomAroundPoint`, `fitToView`,
  `zoomToScale`, `zoomByFactor`, drag-to-pan pointer handlers), and
* the render-request scheduler (`renderDiagramForSource` with its monotonic
  request-id fence, and the 120 ms debounce in `handleSourceInput`).

Modelling conventions:

* JavaScript strings are modelled as `List Char` (Lean `Char` is a Unicode
  scalar value; the sources never materialise lone surrogates).
* Byte arrays (`Uint8Array`) are modelled as `List Nat` whose members are
  below 256 where that matters; the bound is carried as a hypothesis.
* JavaScript numbers are modelled as rationals (`ℚ`): the viewport math and
  the debounce timestamps are exact-real reasoning, the standard idealisation
  of IEEE doubles.
* Asynchronous completions are modelled as explicit events applied to an
  explicit state record, in the order the event loop would deliver them.
* The compression backends (the platform `CompressionStream` and fflate's
  `deflateSync`/`inflateSync`) are external to the repository; they are
  modelled as an abstract `CompressionBackend` whose contract (lossless,
  nonempty byte output) is exactly what a deflate implementation provides.
-/

namespace MermaidStudio

/-! ## Share codec: base64url layer

`bytesToBase64Url` in the source builds a binary string from the bytes with
`String.fromCharCode`, applies the platform `btoa`, then swaps `+`/`/` for
`-`/`_` and strips trailing `=` padding.  `String.fromCharCode` followed by
`charCodeAt` is the identity on code units below 256, so the binary-string
bridge is collapsed and `btoa`/`atob` act directly on byte lists, following
the standard base64 / HTML forgiving-base64 algorithms they implement. -/

def b64Alphabet : List Char :=
  ("ABCDEFGHIJKLMNOPQRSTUVWXYZabcdefghijklmnopqrstuvwxyz0123456789+/").data

def charOfSextet (n : Nat) : Char := b64Alphabet.getD n 'A'

def sextetOfChar (c : Char) : Option Nat :=
  let i := b64Alphabet.indexOf c
  if i < b64Alphabet.length then some i else none

/-- Sextet stream of standard base64, without padding: 3 input bytes become
4 sextets, a trailing byte becomes 2, two trailing bytes become 3. -/
def b64EncodeCore : List Nat → List Nat
  | [] => []
  | [a] => [a / 4, a % 4 * 16]
  | [a, b] => [a / 4, a % 4 * 16 + b / 16, b % 16 * 4]
  | a :: b :: c :: rest =>
      a / 4 :: (a % 4 * 16 + b / 16) :: (b % 16 * 4 + c / 64) :: c % 64 ::
        b64EncodeCore rest

/-- Number of `=` characters `btoa` appends for an input of `n` bytes. -/
def b64PadCount (n : Nat) : Nat := (3 - n % 3) % 3

/-- The platform `btoa`, acting on the byte list underlying the binary
string: standard base64 with `=` padding. -/
def btoaBytes (bytes : List Nat) : List Char :=
  (b64EncodeCore bytes).map charOfSextet ++
    List.replicate (b64PadCount bytes.length) '='

/-- `.replace(/\+/g, "-").replace(/\//g, "_")`, per character. -/
def urlSwapChar (c : Char) : Char :=
  if c = '+' then '-' else if c = '/' then '_' else c

/-- Replace every dash with `+` and every underscore with `/`, per
character (the two global regex replaces in the source). -/
def urlUnswapChar (c : Char) : Char :=
  if c = '-' then '+' else if c = '_' then '/' else c

/-- `.replace(/=+$/g, "")`: drop the trailing run of `=`. -/
def stripTrailingEq (cs : List Char) : List Char :=
  (cs.reverse.dropWhile (fun c => c = '=')).reverse

def bytesToBase64Url (bytes : List Nat) : List Char :=
  stripTrailingEq ((btoaBytes bytes).map urlSwapChar)

/-- Inverse sextet stream: groups of 4 sextets yield 3 bytes; a final group
of 2 or 3 sextets yields 1 or 2 bytes, leftover bits discarded
(HTML forgiving-base64 semantics). -/
def b64DecodeCore : List Nat → List Nat
  | a :: b :: c :: d :: rest =>
      (a * 4 + b / 16) :: (b % 16 * 16 + c / 4) :: (c % 4 * 64 + d) ::
        b64DecodeCore rest
  | [a, b] => [a * 4 + b / 16]
  | [a, b, c] => [a * 4 + b / 16, b % 16 * 16 + c / 4]
  | _ => []

def sextetsOfChars : List Char → Option (List Nat)
  | [] => some []
  | c :: rest =>
      match sextetOfChar c, sextetsOfChars rest with
      | some s, some ss => some (s :: ss)
      | _, _ => none

def isAsciiWhitespaceChar (c : Char) : Bool :=
  c = ' ' ∨ c = '\t' ∨ c = '\n' ∨ c = '\x0c' ∨ c = '\r'

/-- Remove one or two trailing `=` characters (only called when the length is
a multiple of four, per forgiving-base64). -/
def dropB64Padding (cs : List Char) : List Char :=
  match cs.reverse with
  | '=' :: '=' :: r => r.reverse
  | '=' :: r => r.reverse
  | _ => cs

/-- The platform `atob`: HTML forgiving-base64 decode.  Strips ASCII
whitespace, removes up to two trailing `=` when the length is a multiple of
four, rejects a leftover length of 1 mod 4 and any character outside the
base64 alphabet, then decodes sextets to bytes. -/
def atobBytes (input : List Char) : Except String (List Nat) :=
  let cs := input.filter (fun c => !isAsciiWhitespaceChar c)
  let cs := if cs.length % 4 = 0 then dropB64Padding cs else cs
  if cs.length % 4 = 1 then
    Except.error "InvalidCharacterError"
  else
    match sextetsOfChars cs with
    | some sextets => Except.ok (b64DecodeCore sextets)
    | none => Except.error "InvalidCharacterError"

/-- `base64UrlToBytes`: empty-payload check, `-`/`_` normalisation, re-pad to
a multiple of 4 with `=`, then `atob` and `charCodeAt` (collapsed). -/
def base64UrlToBytes (encoded : List Char) : Except String (List Nat) :=
  if encoded = [] then
    Except.error "Share link payload is empty."
  else
    let normalized := encoded.map urlUnswapChar
    let padded :=
      normalized ++ List.replicate ((4 - normalized.length % 4) % 4) '='
    atobBytes padded

/-! ## Share codec: UTF-8 layer

`TextEncoder` encodes the source string to UTF-8 bytes; `TextDecoder` (in its
default, non-fatal mode) decodes bytes back, substituting U+FFFD for invalid
sequences per the WHATWG UTF-8 decode algorithm. -/

/-- UTF-8 encoding of one Unicode scalar value (`TextEncoder`, per scalar). -/
def utf8EncodeChar (c : Nat) : List Nat :=
  if c < 0x80 then [c]
  else if c < 0x800 then [0xC0 + c / 64, 0x80 + c % 64]
  else if c < 0x10000 then
    [0xE0 + c / 4096, 0x80 + c / 64 % 64, 0x80 + c % 64]
  else
    [0xF0 + c / 0x40000, 0x80 + c / 4096 % 64, 0x80 + c / 64 % 64,
      0x80 + c % 64]

/-- `TextEncoder.encode`: UTF-8 bytes of the scalar-value sequence. -/
def utf8Encode : List Char → List Nat
  | [] => []
  | c :: cs => utf8EncodeChar c.toNat ++ utf8Encode cs

/-- Lower bound for the first continuation byte after lead byte `b`
(WHATWG UTF-8 decoder). -/
def utf8ContLo (b : Nat) : Nat :=
  if b = 0xE0 then 0xA0 else if b = 0xF0 then 0x90 else 0x80

/-- Upper bound for the first continuation byte after lead byte `b`
(WHATWG UTF-8 decoder). -/
def utf8ContHi (b : Nat) : Nat :=
  if b = 0xED then 0x9F else if b = 0xF4 then 0x8F else 0xBF

/-- The WHATWG UTF-8 decoder on scalar values (`TextDecoder` with the default
non-fatal flag): invalid sequences produce U+FFFD replacement scalars, with
resynchronisation at the first non-continuation byte. -/
def utf8DecodeLoop : List Nat → List Nat
  | [] => []
  | b :: rest =>
    if b < 0x80 then b :: utf8DecodeLoop rest
    else if 0xC2 ≤ b ∧ b ≤ 0xDF then
      match rest with
      | [] => [0xFFFD]
      | b1 :: rest1 =>
        if 0x80 ≤ b1 ∧ b1 ≤ 0xBF then
          ((b - 0xC0) * 64 + (b1 - 0x80)) :: utf8DecodeLoop rest1
        else 0xFFFD :: utf8DecodeLoop (b1 :: rest1)
    else if 0xE0 ≤ b ∧ b ≤ 0xEF then
      match rest with
      | [] => [0xFFFD]
      | b1 :: rest1 =>
        if utf8ContLo b ≤ b1 ∧ b1 ≤ utf8ContHi b then
          match rest1 with
          | [] => [0xFFFD]
          | b2 :: rest2 =>
            if 0x80 ≤ b2 ∧ b2 ≤ 0xBF then
              ((b - 0xE0) * 4096 + (b1 - 0x80) * 64 + (b2 - 0x80)) ::
                utf8DecodeLoop rest2
            else 0xFFFD :: utf8DecodeLoop (b2 :: rest2)
        else 0xFFFD :: utf8DecodeLoop (b1 :: rest1)
    else if 0xF0 ≤ b ∧ b ≤ 0xF4 then
      match rest with
      | [] => [0xFFFD]
      | b1 :: rest1 =>
        if utf8ContLo b ≤ b1 ∧ b1 ≤ utf8ContHi b then
          match rest1 with
          | [] => [0xFFFD]
          | b2 :: rest2 =>
            if 0x80 ≤ b2 ∧ b2 ≤ 0xBF then
              match rest2 with
              | [] => [0xFFFD]
              | b3 :: rest3 =>
                if 0x80 ≤ b3 ∧ b3 ≤ 0xBF then
                  ((b - 0xF0) * 0x40000 + (b1 - 0x80) * 4096 +
                      (b2 - 0x80) * 64 + (b3 - 0x80)) :: utf8DecodeLoop rest3
                else 0xFFFD :: utf8DecodeLoop (b3 :: rest3)
            else 0xFFFD :: utf8DecodeLoop (b2 :: rest2)
        else 0xFFFD :: utf8DecodeLoop (b1 :: rest1)
    else 0xFFFD :: utf8DecodeLoop rest
termination_by bs => bs.length
decreasing_by all_goals simp <;> omega

/-- `TextDecoder.decode`, producing `Char`s.  Every scalar the loop emits is
a valid scalar value, so `Char.ofNat` (which defaults only on invalid input)
is faithful. -/
def utf8Decode (bytes : List Nat) : List Char :=
  (utf8DecodeLoop bytes).map Char.ofNat

/-! ## Share codec: token layer -/

/-- `SHARE_PREFIX` (source constant), as a scalar-value list. -/
def shareTokenHead : List Char := ("v1.d.").data

/-- `SHARE_VERSION` followed by the dot separator. -/
def shareVersionDot : List Char := ("v1.").data

/-- `token.startsWith(s)`, spelt out on scalar-value lists. -/
def startsWithChars : List Char → List Char → Bool
  | _, [] => true
  | [], _ :: _ => false
  | c :: cs, p :: ps => c = p && startsWithChars cs ps

/-- The two interchangeable compression backends (platform
`CompressionStream`/`DecompressionStream` and fflate's
`deflateSync`/`inflateSync`) are external libraries; the codec is verified
against any backend.  `decompress` is partial because inflating corrupt
input throws. -/
structure CompressionBackend where
  compress : List Nat → List Nat
  decompress : List Nat → Option (List Nat)

/-- The backend contract a deflate implementation provides on byte inputs:
decompression inverts compression, the compressed stream is never empty (a
deflate stream always carries at least a final-block header), and the output
is again a byte sequence. -/
def LosslessBackend (backend : CompressionBackend) : Prop :=
  ∀ bytes, (∀ b ∈ bytes, b < 256) →
    backend.decompress (backend.compress bytes) = some bytes ∧
    backend.compress bytes ≠ [] ∧
    (∀ b ∈ backend.compress bytes, b < 256)

def getPayloadFromToken (token : List Char) : Except String (List Char) :=
  if startsWithChars token shareTokenHead then
    Except.ok (token.drop shareTokenHead.length)
  else if startsWithChars token shareVersionDot then
    Except.error "Unsupported share link format version."
  else
    Except.ok token

def encodeDiagramToken (backend : CompressionBackend) (source : List Char) :
    List Char :=
  shareTokenHead ++ bytesToBase64Url (backend.compress (utf8Encode source))

def decodeDiagramToken (backend : CompressionBackend) (token : List Char) :
    Except String (List Char) := do
  let payload ← getPayloadFromToken token
  let compressed ← base64UrlToBytes payload
  match backend.decompress compressed with
  | some decompressed => Except.ok (utf8Decode decompressed)
  | none => Except.error "Could not decompress share link payload."

/-- A minimal concrete backend satisfying `LosslessBackend` (it prepends a
marker byte), used to instantiate backend-generic theorems. -/
def markerBackend : CompressionBackend where
  compress := fun bytes => 0 :: bytes
  decompress := fun bytes =>
    match bytes with
    | 0 :: rest => some rest
    | _ => none

/-! ## URL integration layer

`readDiagramTokenFromUrl` / `writeDiagramTokenToUrl` use the platform `URL`
and `URLSearchParams`.  A URL is modelled by its parsed query parameters and
its fragment string (without the leading `#`, which the source strips).
`URLSearchParams` parsing/serialisation follows the WHATWG
`application/x-www-form-urlencoded` algorithms: split on `&`, split each
nonempty piece at the first `=`, percent-plus-decode; serialisation
percent-plus-encodes both sides and joins with `=` and `&`. -/

def diagramParamName : List Char := ("diagram").data

def hexUpperDigit (n : Nat) : Char := ("0123456789ABCDEF").data.getD n '0'

def hexDigitVal (c : Char) : Option Nat :=
  if '0' ≤ c ∧ c ≤ '9' then some (c.toNat - 48)
  else if 'A' ≤ c ∧ c ≤ 'F' then some (c.toNat - 55)
  else if 'a' ≤ c ∧ c ≤ 'f' then some (c.toNat - 87)
  else none

/-- Characters serialised verbatim by `application/x-www-form-urlencoded`. -/
def isFormSafeChar (c : Char) : Bool :=
  ('0' ≤ c ∧ c ≤ '9') ∨ ('A' ≤ c ∧ c ≤ 'Z') ∨ ('a' ≤ c ∧ c ≤ 'z') ∨
    c = '*' ∨ c = '-' ∨ c = '.' ∨ c = '_'

def percentEncodeBytes : List Nat → List Char
  | [] => []
  | b :: rest =>
      '%' :: hexUpperDigit (b / 16) :: hexUpperDigit (b % 16) ::
        percentEncodeBytes rest

def formUrlEncodeChar (c : Char) : List Char :=
  if c = ' ' then ['+']
  else if isFormSafeChar c then [c]
  else percentEncodeBytes (utf8EncodeChar c.toNat)

def formUrlEncode : List Char → List Char
  | [] => []
  | c :: rest => formUrlEncodeChar c ++ formUrlEncode rest

/-- Byte stream of form-urlencoded decoding: `+` is a space, a valid `%XX`
escape is that byte, everything else contributes its UTF-8 bytes. -/
def percentDecodeBytes : List Char → List Nat
  | [] => []
  | c :: rest =>
    if c = '%' then
      match _hr : rest with
      | h1 :: h2 :: rest2 =>
          match hexDigitVal h1, hexDigitVal h2 with
          | some v1, some v2 => (v1 * 16 + v2) :: percentDecodeBytes rest2
          | _, _ => utf8EncodeChar c.toNat ++ percentDecodeBytes rest
      | _ => utf8EncodeChar c.toNat ++ percentDecodeBytes rest
    else if c = '+' then 32 :: percentDecodeBytes rest
    else utf8EncodeChar c.toNat ++ percentDecodeBytes rest
termination_by cs => cs.length
decreasing_by all_goals simp_all <;> omega

def formUrlDecode (s : List Char) : List Char :=
  utf8Decode (percentDecodeBytes s)

def splitOnAmp : List Char → List (List Char)
  | [] => [[]]
  | c :: rest =>
    if c = '&' then [] :: splitOnAmp rest
    else
      match splitOnAmp rest with
      | seg :: segs => (c :: seg) :: segs
      | [] => [[c]]

def splitAtFirstEq : List Char → List Char × List Char
  | [] => ([], [])
  | c :: rest =>
    if c = '=' then ([], rest)
    else
      let p := splitAtFirstEq rest
      (c :: p.1, p.2)

def parsePair (part : List Char) : List Char × List Char :=
  let p := splitAtFirstEq part
  (formUrlDecode p.1, formUrlDecode p.2)

def parseParams (s : List Char) : List (List Char × List Char) :=
  ((splitOnAmp s).filter (fun seg => seg ≠ [])).map parsePair

def serializePair (p : List Char × List Char) : List Char :=
  formUrlEncode p.1 ++ '=' :: formUrlEncode p.2

def serializeParams : List (List Char × List Char) → List Char
  | [] => []
  | [p] => serializePair p
  | p :: q :: rest => serializePair p ++ '&' :: serializeParams (q :: rest)

def paramsGet (ps : List (List Char × List Char)) (name : List Char) :
    Option (List Char) :=
  match ps with
  | [] => none
  | p :: rest => if p.1 = name then some p.2 else paramsGet rest name

def paramsDelete (ps : List (List Char × List Char)) (name : List Char) :
    List (List Char × List Char) :=
  ps.filter (fun p => p.1 ≠ name)

def paramsSetLoop (name value : List Char) :
    List (List Char × List Char) → List (List Char × List Char)
  | [] => []
  | p :: rest =>
      if p.1 = name then (name, value) :: paramsDelete rest name
      else p :: paramsSetLoop name value rest

/-- `URLSearchParams.set`: overwrite the first entry with this name and drop
the others, or append if absent. -/
def paramsSet (ps : List (List Char × List Char)) (name value : List Char) :
    List (List Char × List Char) :=
  if ps.any (fun p => p.1 = name) then paramsSetLoop name value ps
  else ps ++ [(name, value)]

/-- A URL, reduced to the parts the token helpers touch: the parsed query
parameters (`url.searchParams`) and the fragment (`url.hash` without `#`). -/
structure UrlModel where
  query : List (List Char × List Char)
  fragment : List Char

def readDiagramTokenFromUrl (url : UrlModel) : Option (List Char) :=
  match paramsGet (parseParams url.fragment) diagramParamName with
  | some token => some token
  | none => paramsGet url.query diagramParamName

def writeDiagramTokenToUrl (url : UrlModel) (token : List Char) : UrlModel :=
  { fragment := serializeParams
      (paramsSet (parseParams url.fragment) diagramParamName token),
    query := paramsDelete url.query diagramParamName }

/-- Characters of a base64url payload (what `bytesToBase64Url` can emit). -/
def isBase64UrlChar (c : Char) : Bool :=
  ('A' ≤ c ∧ c ≤ 'Z') ∨ ('a' ≤ c ∧ c ≤ 'z') ∨ ('0' ≤ c ∧ c ≤ '9') ∨
    c = '-' ∨ c = '_'

/-! ## Viewport controller

`PreviewPanel` state: `transform = {x, y, scale}` with `MIN_SCALE = 0.2`,
`MAX_SCALE = 16`.  `zoomToScale`/`zoomByFactor` anchor at the viewport
centre `(cx, cy)`, passed here as arguments since the model carries no DOM. -/

structure Transform where
  x : ℚ
  y : ℚ
  scale : ℚ
deriving DecidableEq

def MIN_SCALE : ℚ := 0.2

def MAX_SCALE : ℚ := 16

def clamp (value lo hi : ℚ) : ℚ := min hi (max lo value)

def initialTransform : Transform := { x := 0, y := 0, scale := 1 }

def applyZoomAroundPoint (cur : Transform) (nextScale anchorX anchorY : ℚ) :
    Transform :=
  let scale := clamp nextScale MIN_SCALE MAX_SCALE
  let wx := (anchorX - cur.x) / cur.scale
  let wy := (anchorY - cur.y) / cur.scale
  { scale := scale, x := anchorX - wx * scale, y := anchorY - wy * scale }

def zoomToScale (cur : Transform) (nextScale cx cy : ℚ) : Transform :=
  applyZoomAroundPoint cur nextScale cx cy

def zoomByFactor (cur : Transform) (factor cx cy : ℚ) : Transform :=
  zoomToScale cur (cur.scale * factor) cx cy

def fitToView (vpWidth vpHeight svgWidth svgHeight : ℚ) : Transform :=
  let pad : ℚ := 48
  let rawScale := min ((vpWidth - pad) / svgWidth) ((vpHeight - pad) / svgHeight)
  let scale := clamp rawScale MIN_SCALE MAX_SCALE
  { scale := scale,
    x := (vpWidth - svgWidth * scale) / 2,
    y := (vpHeight - svgHeight * scale) / 2 }

/-- One user-driven viewport operation; `dragMove` is a pointer-move applied
to an open drag session (translation only, scale untouched). -/
inductive ViewportOp where
  | zoomAround (nextScale anchorX anchorY : ℚ)
  | zoomTo (nextScale cx cy : ℚ)
  | zoomBy (factor cx cy : ℚ)
  | fit (vpWidth vpHeight svgWidth svgHeight : ℚ)
  | dragMove (x y : ℚ)

def applyViewportOp (t : Transform) : ViewportOp → Transform
  | .zoomAround ns ax ay => applyZoomAroundPoint t ns ax ay
  | .zoomTo ns cx cy => zoomToScale t ns cx cy
  | .zoomBy f cx cy => zoomByFactor t f cx cy
  | .fit vw vh w h => fitToView vw vh w h
  | .dragMove nx ny => { t with x := nx, y := ny }

def applyViewportOps (t : Transform) (ops : List ViewportOp) : Transform :=
  ops.foldl applyViewportOp t

/-! ## Drag sessions (`dragRef`) -/

structure DragState where
  pointerId : Nat
  startClientX : ℚ
  startClientY : ℚ
  startX : ℚ
  startY : ℚ
deriving DecidableEq

def handlePointerDown (button pointerId : Nat) (clientX clientY : ℚ)
    (t : Transform) (drag : Option DragState) : Option DragState :=
  if button ≠ 0 then drag
  else some { pointerId := pointerId, startClientX := clientX,
              startClientY := clientY, startX := t.x, startY := t.y }

def handlePointerMove (pointerId : Nat) (clientX clientY : ℚ)
    (drag : Option DragState) (t : Transform) : Transform :=
  match drag with
  | none => t
  | some d =>
      if d.pointerId ≠ pointerId then t
      else { t with x := d.startX + clientX - d.startClientX,
                    y := d.startY + clientY - d.startClientY }

def handlePointerUp (pointerId : Nat) (drag : Option DragState) :
    Option DragState :=
  match drag with
  | none => none
  | some d => if d.pointerId ≠ pointerId then some d else none

/-! ## Render scheduler (`renderDiagramForSource`)

`renderDiagramForSource` bumps `requestIdRef` on entry and, at each await
boundary, applies its result to state only when its stamp still equals the
counter.  The model splits the async function into the synchronous issue
step and the completion step the event loop later runs. -/

structure RenderState where
  requestId : Nat
  svgMarkup : String
  asciiMarkup : String
  renderError : String
deriving DecidableEq

/-- How a render settles: the SVG branch resolving, the ASCII branch
resolving, or either branch throwing. -/
inductive RenderOutcome where
  | svgOk (svg : String)
  | asciiOk (ascii : String)
  | failed (message : String)

/-- `const requestId = ++requestIdRef.current`. -/
def issueRender (st : RenderState) : RenderState × Nat :=
  ({ st with requestId := st.requestId + 1 }, st.requestId + 1)

/-- The tail of `renderDiagramForSource` after the renderer settles:
`if (requestId !== requestIdRef.current) return;` then the three state
writes of the corresponding branch. -/
def completeRender (st : RenderState) (requestId : Nat)
    (outcome : RenderOutcome) : RenderState :=
  if requestId ≠ st.requestId then st
  else
    match outcome with
    | .svgOk svg =>
        { st with renderError := "", svgMarkup := svg, asciiMarkup := "" }
    | .asciiOk ascii =>
        { st with renderError := "", asciiMarkup := ascii, svgMarkup := "" }
    | .failed message =>
        { st with renderError := message, svgMarkup := "", asciiMarkup := "" }

/-! ## Debounce (`handleSourceInput`)

`handleSourceInput` clears any pending `sourceCommitTimeoutRef` timer and
arms a fresh 120 ms timer carrying the latest source.  Time is explicit:
`timerDeadline` holds the pending deadline and its captured source, and the
event loop fires it once the deadline has passed. -/

structure SchedState where
  timerDeadline : Option (ℚ × String)
  renders : List String
deriving DecidableEq

/-- An edit at time `now`: `clearTimeout` of any pending timer, then
`setTimeout(..., 120)` capturing `nextSource`. -/
def handleSourceInput (now : ℚ) (nextSource : String) (st : SchedState) :
    SchedState :=
  { st with timerDeadline := some (now + 120, nextSource) }

/-- The event loop at time `now`: a pending timer whose deadline has passed
fires, issuing `renderDiagramForSource` for its captured source. -/
def fireDueTimer (now : ℚ) (st : SchedState) : SchedState :=
  match st.timerDeadline with
  | some p => if p.1 ≤ now then
        { timerDeadline := none, renders := st.renders ++ [p.2] }
      else st
  | none => st

/-- Deliver a time-stamped edit sequence: before each edit the event loop
runs (firing any due timer), then the edit handler runs. -/
def runEdits : SchedState → List (ℚ × String) → SchedState
  | st, [] => st
  | st, (t, s) :: rest => runEdits (handleSourceInput t s (fireDueTimer t st)) rest

/-! ## Base64url round-trip lemmas -/

theorem sextetOfChar_charOfSextet : ∀ s < 64, sextetOfChar (charOfSextet s) = some s := by
  decide

theorem charOfSextet_ne_eq : ∀ s < 64, urlSwapChar (charOfSextet s) ≠ '=' := by
  decide

theorem charOfSextet_not_ws :
    ∀ s < 64, isAsciiWhitespaceChar (charOfSextet s) = false := by
  decide

theorem unswap_swap_charOfSextet :
    ∀ s < 64, urlUnswapChar (urlSwapChar (charOfSextet s)) = charOfSextet s := by
  decide

theorem b64EncodeCore_lt64 (bytes : List Nat) (hb : ∀ b ∈ bytes, b < 256) :
    ∀ s ∈ b64EncodeCore bytes, s < 64 := by
  induction bytes using b64EncodeCore.induct with
  | case1 => simp [b64EncodeCore]
  | case2 a =>
    have := hb a (by simp)
    simp only [b64EncodeCore, List.mem_cons, List.not_mem_nil, or_false]
    rintro s (rfl | rfl) <;> omega
  | case3 a b =>
    have ha := hb a (by simp)
    have hbb := hb b (by simp)
    simp only [b64EncodeCore, List.mem_cons, List.not_mem_nil, or_false]
    rintro s (rfl | rfl | rfl) <;> omega
  | case4 a b c rest ih =>
    have ha := hb a (by simp)
    have hbb := hb b (by simp)
    have hc := hb c (by simp)
    simp only [b64EncodeCore, List.mem_cons]
    rintro s (rfl | rfl | rfl | rfl | hs)
    · omega
    · omega
    · omega
    · omega
    · exact ih (fun x hx => hb x (by simp [hx])) s hs

theorem b64DecodeCore_encodeCore (bytes : List Nat) (hb : ∀ b ∈ bytes, b < 256) :
    b64DecodeCore (b64EncodeCore bytes) = bytes := by
  induction bytes using b64EncodeCore.induct with
  | case1 => rfl
  | case2 a =>
    have := hb a (by simp)
    simp only [b64EncodeCore, b64DecodeCore, List.cons.injEq, and_true]
    omega
  | case3 a b =>
    have ha := hb a (by simp)
    have hbb := hb b (by simp)
    simp only [b64EncodeCore, b64DecodeCore, List.cons.injEq, and_true]
    omega
  | case4 a b c rest ih =>
    have ha := hb a (by simp)
    have hbb := hb b (by simp)
    have hc := hb c (by simp)
    simp only [b64EncodeCore, b64DecodeCore,
      ih (fun x hx => hb x (by simp [hx]))]
    refine List.cons_eq_cons.mpr ⟨by omega, ?_⟩
    refine List.cons_eq_cons.mpr ⟨by omega, ?_⟩
    exact List.cons_eq_cons.mpr ⟨by omega, rfl⟩

theorem sextetsOfChars_map (ss : List Nat) (hs : ∀ s ∈ ss, s < 64) :
    sextetsOfChars (ss.map charOfSextet) = some ss := by
  induction ss with
  | nil => rfl
  | cons s rest ih =>
    simp only [List.map_cons, sextetsOfChars,
      sextetOfChar_charOfSextet s (hs s (by simp)),
      ih (fun x hx => hs x (by simp [hx]))]

theorem dropWhile_of_head_ne {l : List Char} (h : ∀ c ∈ l, c ≠ '=') :
    l.dropWhile (fun c => c = '=') = l := by
  cases l with
  | nil => rfl
  | cons c rest =>
    have := h c (by simp)
    simp [List.dropWhile_cons, this]

theorem dropWhile_replicate_append (k : Nat) (l : List Char)
    (h : ∀ c ∈ l, c ≠ '=') :
    (List.replicate k '=' ++ l).dropWhile (fun c => c = '=') = l := by
  induction k with
  | zero => simpa using dropWhile_of_head_ne h
  | succ n ih => simpa [List.replicate_succ, List.dropWhile_cons] using ih

theorem stripTrailingEq_append (l : List Char) (k : Nat)
    (h : ∀ c ∈ l, c ≠ '=') :
    stripTrailingEq (l ++ List.replicate k '=') = l := by
  unfold stripTrailingEq
  rw [List.reverse_append, List.reverse_replicate,
    dropWhile_replicate_append k l.reverse (by simpa using h),
    List.reverse_reverse]

theorem bytesToBase64Url_eq_core (bytes : List Nat)
    (hb : ∀ b ∈ bytes, b < 256) :
    bytesToBase64Url bytes
      = (b64EncodeCore bytes).map (fun s => urlSwapChar (charOfSextet s)) := by
  unfold bytesToBase64Url btoaBytes
  rw [List.map_append, List.map_map]
  have hrep : (List.replicate (b64PadCount bytes.length) '=').map urlSwapChar
      = List.replicate (b64PadCount bytes.length) '=' := by
    simp [List.map_replicate, urlSwapChar]
  rw [hrep]
  exact stripTrailingEq_append _ _ (by
    intro c hc
    rcases List.mem_map.mp hc with ⟨s, hs, rfl⟩
    exact charOfSextet_ne_eq s (b64EncodeCore_lt64 bytes hb s hs))

theorem charOfSextet_ne_eqChar : ∀ s < 64, charOfSextet s ≠ '=' := by
  decide

theorem b64EncodeCore_nil_iff (bytes : List Nat) :
    b64EncodeCore bytes = [] ↔ bytes = [] := by
  induction bytes using b64EncodeCore.induct <;> simp [b64EncodeCore]

theorem b64EncodeCore_length_mod (bytes : List Nat) :
    (b64EncodeCore bytes).length % 4 ≠ 1 ∧
    ((b64EncodeCore bytes).length +
        (4 - (b64EncodeCore bytes).length % 4) % 4) % 4 = 0 := by
  induction bytes using b64EncodeCore.induct with
  | case1 => simp [b64EncodeCore]
  | case2 a => simp [b64EncodeCore]
  | case3 a b => simp [b64EncodeCore]
  | case4 a b c rest ih =>
    simp only [b64EncodeCore, List.length_cons]
    omega

theorem dropB64Padding_append (l : List Char) (k : Nat) (hk : k ≤ 2)
    (h : ∀ c ∈ l, c ≠ '=') :
    dropB64Padding (l ++ List.replicate k '=') = l := by
  interval_cases k
  · have hs : (l ++ List.replicate 0 '=').reverse = l.reverse := by simp
    unfold dropB64Padding
    rw [hs]
    cases hrev : l.reverse with
    | nil =>
      have : l = [] := by simpa using congrArg List.reverse hrev
      simp [this]
    | cons c r =>
      have hc : c ≠ '=' := by
        refine h c ?_ 
        have : c ∈ l.reverse := by rw [hrev]; exact List.mem_cons_self _ _
        simpa using this
      simp [hc]
  · have hs : (l ++ List.replicate 1 '=').reverse = '=' :: l.reverse := by simp
    unfold dropB64Padding
    rw [hs]
    cases hrev : l.reverse with
    | nil =>
      have : l = [] := by simpa using congrArg List.reverse hrev
      simp [this]
    | cons c r =>
      have hc : c ≠ '=' := by
        refine h c ?_ 
        have : c ∈ l.reverse := by rw [hrev]; exact List.mem_cons_self _ _
        simpa using this
      have : (c :: r).reverse = l := by
        rw [← hrev, List.reverse_reverse]
      simp [hc, this]
  · have hs : (l ++ List.replicate 2 '=').reverse = '=' :: '=' :: l.reverse := by
      simp [List.replicate]
    unfold dropB64Padding
    rw [hs]
    simp

theorem atobBytes_alphabet (ss : List Nat) (hs : ∀ s ∈ ss, s < 64) (k : Nat)
    (hk : k ≤ 2) (hlen : (ss.length + k) % 4 = 0) (hmod1 : ss.length % 4 ≠ 1) :
    atobBytes (ss.map charOfSextet ++ List.replicate k '=')
      = Except.ok (b64DecodeCore ss) := by
  have hchars : ∀ c ∈ ss.map charOfSextet, c ≠ '=' := by
    intro c hc
    rcases List.mem_map.mp hc with ⟨s, hsmem, rfl⟩
    exact charOfSextet_ne_eqChar s (hs s hsmem)
  have hfilter :
      (ss.map charOfSextet ++ List.replicate k '=').filter
        (fun c => !isAsciiWhitespaceChar c)
        = ss.map charOfSextet ++ List.replicate k '=' := by
    refine List.filter_eq_self.mpr ?_
    intro c hc
    rcases List.mem_append.mp hc with hc | hc
    · rcases List.mem_map.mp hc with ⟨s, hsmem, rfl⟩
      simp [charOfSextet_not_ws s (hs s hsmem)]
    · rcases List.eq_of_mem_replicate hc with rfl
      decide
  have hlen' : (ss.map charOfSextet ++ List.replicate k '=').length % 4 = 0 := by
    simp only [List.length_append, List.length_map, List.length_replicate]
    exact hlen
  unfold atobBytes
  simp only [hfilter, hlen', if_pos rfl,
    dropB64Padding_append (ss.map charOfSextet) k hk hchars]
  rw [if_neg (by simpa using hmod1)]
  simp only [ite_true]
  rw [sextetsOfChars_map ss hs]

theorem base64UrlToBytes_bytesToBase64Url (bytes : List Nat) (hne : bytes ≠ [])
    (hb : ∀ b ∈ bytes, b < 256) :
    base64UrlToBytes (bytesToBase64Url bytes) = Except.ok bytes := by
  have hcore : ∀ s ∈ b64EncodeCore bytes, s < 64 := b64EncodeCore_lt64 bytes hb
  have hmod := b64EncodeCore_length_mod bytes
  rw [bytesToBase64Url_eq_core bytes hb]
  have h1 : (b64EncodeCore bytes).map (fun s => urlSwapChar (charOfSextet s))
      ≠ [] := by
    simp only [ne_eq, List.map_eq_nil_iff, b64EncodeCore_nil_iff]
    exact hne
  unfold base64UrlToBytes
  rw [if_neg h1]
  have hnorm : ((b64EncodeCore bytes).map
        (fun s => urlSwapChar (charOfSextet s))).map urlUnswapChar
      = (b64EncodeCore bytes).map charOfSextet := by
    rw [List.map_map]
    exact List.map_congr_left (fun s hsm => unswap_swap_charOfSextet s (hcore s hsm))
  simp only [hnorm, List.length_map]
  rw [atobBytes_alphabet (b64EncodeCore bytes) hcore _ (by omega) (by omega)
    hmod.1]
  rw [b64DecodeCore_encodeCore bytes hb]

/-! ## UTF-8 round-trip lemmas -/

theorem utf8DecodeLoop_encodeChar (n : Nat)
    (hv : n < 0xD800 ∨ (0xDFFF < n ∧ n < 0x110000)) (rest : List Nat) :
    utf8DecodeLoop (utf8EncodeChar n ++ rest) = n :: utf8DecodeLoop rest := by
  unfold utf8EncodeChar
  by_cases h1 : n < 0x80
  · rw [if_pos h1]
    show utf8DecodeLoop (n :: rest) = n :: utf8DecodeLoop rest
    rw [utf8DecodeLoop.eq_def]
    dsimp only
    rw [if_pos h1]
  · rw [if_neg h1]
    by_cases h2 : n < 0x800
    · rw [if_pos h2]
      show utf8DecodeLoop ((0xC0 + n / 64) :: (0x80 + n % 64) :: rest)
          = n :: utf8DecodeLoop rest
      rw [utf8DecodeLoop.eq_def]
      dsimp only
      rw [if_neg (by omega), if_pos (by omega), if_pos (by omega),
        List.cons.injEq]
      exact ⟨by omega, rfl⟩
    · rw [if_neg h2]
      by_cases h3 : n < 0x10000
      · rw [if_pos h3]
        show utf8DecodeLoop
            ((0xE0 + n / 4096) :: (0x80 + n / 64 % 64) :: (0x80 + n % 64) ::
              rest) = n :: utf8DecodeLoop rest
        have hcont : utf8ContLo (0xE0 + n / 4096) ≤ 0x80 + n / 64 % 64 ∧
            0x80 + n / 64 % 64 ≤ utf8ContHi (0xE0 + n / 4096) := by
          unfold utf8ContLo utf8ContHi
          split_ifs <;> omega
        rw [utf8DecodeLoop.eq_def]
        dsimp only
        rw [if_neg (by omega), if_neg (by omega), if_pos (by omega),
          if_pos hcont, if_pos (by omega), List.cons.injEq]
        exact ⟨by omega, rfl⟩
      · rw [if_neg h3]
        show utf8DecodeLoop
            ((0xF0 + n / 0x40000) :: (0x80 + n / 4096 % 64) ::
              (0x80 + n / 64 % 64) :: (0x80 + n % 64) :: rest)
            = n :: utf8DecodeLoop rest
        have hcont : utf8ContLo (0xF0 + n / 0x40000) ≤ 0x80 + n / 4096 % 64 ∧
            0x80 + n / 4096 % 64 ≤ utf8ContHi (0xF0 + n / 0x40000) := by
          unfold utf8ContLo utf8ContHi
          split_ifs <;> omega
        rw [utf8DecodeLoop.eq_def]
        dsimp only
        rw [if_neg (by omega), if_neg (by omega), if_neg (by omega),
          if_pos (by omega), if_pos hcont, if_pos (by omega),
          if_pos (by omega), List.cons.injEq]
        exact ⟨by omega, rfl⟩

theorem utf8DecodeLoop_utf8Encode (s : List Char) :
    utf8DecodeLoop (utf8Encode s) = s.map Char.toNat := by
  induction s with
  | nil =>
    show utf8DecodeLoop [] = []
    rw [utf8DecodeLoop.eq_def]
  | cons c cs ih =>
    have hv : c.toNat < 0xD800 ∨ (0xDFFF < c.toNat ∧ c.toNat < 0x110000) :=
      c.valid
    simp only [utf8Encode, List.map_cons]
    rw [utf8DecodeLoop_encodeChar c.toNat hv (utf8Encode cs), ih]

theorem utf8Decode_utf8Encode (s : List Char) :
    utf8Decode (utf8Encode s) = s := by
  unfold utf8Decode
  rw [utf8DecodeLoop_utf8Encode, List.map_map]
  have hid : List.map (Char.ofNat ∘ Char.toNat) s = List.map id s :=
    List.map_congr_left (fun c _ => Char.ofNat_toNat c)
  rw [hid, List.map_id]

theorem utf8EncodeChar_lt256 (n : Nat) (h : n < 0x110000) :
    ∀ b ∈ utf8EncodeChar n, b < 256 := by
  unfold utf8EncodeChar
  split_ifs with h1 h2 h3 <;> intro b hb <;> simp only [List.mem_cons,
    List.not_mem_nil, or_false] at hb
  · omega
  · rcases hb with rfl | rfl <;> omega
  · rcases hb with rfl | rfl | rfl <;> omega
  · rcases hb with rfl | rfl | rfl | rfl <;> omega

theorem utf8Encode_lt256 (s : List Char) : ∀ b ∈ utf8Encode s, b < 256 := by
  induction s with
  | nil => simp [utf8Encode]
  | cons c cs ih =>
    intro b hb
    simp only [utf8Encode] at hb
    rcases List.mem_append.mp hb with hb | hb
    · have hv : c.toNat < 0xD800 ∨ (0xDFFF < c.toNat ∧ c.toNat < 0x110000) :=
        c.valid
      exact utf8EncodeChar_lt256 c.toNat (by omega) b hb
    · exact ih b hb

/-! ## Token-layer lemmas -/

theorem startsWithChars_append (p xs : List Char) :
    startsWithChars (p ++ xs) p = true := by
  induction p with
  | nil => simp [startsWithChars]
  | cons c ps ih => simp [startsWithChars, ih]

theorem getPayloadFromToken_encode (xs : List Char) :
    getPayloadFromToken (shareTokenHead ++ xs) = Except.ok xs := by
  unfold getPayloadFromToken
  rw [if_pos (by simp [startsWithChars_append]), List.drop_left]

/-! ## Claim C1: codec round-trip -/

/-- C1: for every string `s` (including the empty string and strings with
multi-byte code points), decoding the token produced by encoding `s` returns
`s` exactly, under either compression backend: any backend satisfying the
deflate contract gives `decodeDiagramToken (encodeDiagramToken s) = ok s`. -/
theorem c1_codec_round_trip (backend : CompressionBackend)
    (hB : LosslessBackend backend) (s : List Char) :
    decodeDiagramToken backend (encodeDiagramToken backend s)
      = Except.ok s := by
  obtain ⟨hinv, hne, hlt⟩ := hB (utf8Encode s) (utf8Encode_lt256 s)
  unfold encodeDiagramToken decodeDiagramToken
  rw [getPayloadFromToken_encode]
  dsimp only [Bind.bind, Except.bind]
  rw [base64UrlToBytes_bytesToBase64Url _ hne hlt]
  dsimp only
  rw [hinv]
  dsimp only
  rw [utf8Decode_utf8Encode]

/-- Witness for C1: the marker backend meets the contract, and a concrete
multi-byte string round-trips through it. -/
theorem c1_codec_round_trip_witness :
    LosslessBackend markerBackend ∧
    decodeDiagramToken markerBackend
        (encodeDiagramToken markerBackend (("flow — héllo ⇒ 😀").data))
      = Except.ok (("flow — héllo ⇒ 😀").data) := by
  have hB : LosslessBackend markerBackend := by
    intro bytes hb
    refine ⟨rfl, by simp [markerBackend], ?_⟩
    intro b hmem
    simp only [markerBackend] at hmem
    rcases List.mem_cons.mp hmem with rfl | hmem
    · omega
    · exact hb b hmem
  exact ⟨hB, c1_codec_round_trip markerBackend hB _⟩

/-! ## Claim C3: anchor invariance of zoom -/

/-- C3: for every transform with scale in `[0.2, 16]`, every target scale and
every anchor pixel, the content-space point under the anchor computed from
the transform after `applyZoomAroundPoint` equals the one computed from the
transform before — for any anchor, not only the viewport centre. -/
theorem c3_zoom_anchor_invariance (cur : Transform)
    (hscale : MIN_SCALE ≤ cur.scale ∧ cur.scale ≤ MAX_SCALE)
    (targetScale anchorX anchorY : ℚ) :
    (anchorX - (applyZoomAroundPoint cur targetScale anchorX anchorY).x) /
        (applyZoomAroundPoint cur targetScale anchorX anchorY).scale
      = (anchorX - cur.x) / cur.scale ∧
    (anchorY - (applyZoomAroundPoint cur targetScale anchorX anchorY).y) /
        (applyZoomAroundPoint cur targetScale anchorX anchorY).scale
      = (anchorY - cur.y) / cur.scale := by
  have hcur : (0 : ℚ) < cur.scale := by
    have := hscale.1
    unfold MIN_SCALE at this
    linarith
  have hclamp : (0 : ℚ) < clamp targetScale MIN_SCALE MAX_SCALE := by
    unfold clamp MIN_SCALE MAX_SCALE
    have h1 : (0.2 : ℚ) ≤ max (0.2 : ℚ) targetScale := le_max_left _ _
    have h2 : (0.2 : ℚ) ≤ min (16 : ℚ) (max (0.2 : ℚ) targetScale) :=
      le_min (by norm_num) h1
    linarith
  unfold applyZoomAroundPoint
  dsimp only
  constructor <;> (field_simp; ring)

/-- Witness for C3 at a concrete transform, target scale and anchor. -/
theorem c3_zoom_anchor_invariance_witness :
    (MIN_SCALE ≤ ((⟨3, 4, 1⟩ : Transform)).scale ∧
      ((⟨3, 4, 1⟩ : Transform)).scale ≤ MAX_SCALE) ∧
    ((10 - (applyZoomAroundPoint ⟨3, 4, 1⟩ 2 10 20).x) /
        (applyZoomAroundPoint ⟨3, 4, 1⟩ 2 10 20).scale
      = (10 - (⟨3, 4, 1⟩ : Transform).x) / (⟨3, 4, 1⟩ : Transform).scale ∧
    (20 - (applyZoomAroundPoint ⟨3, 4, 1⟩ 2 10 20).y) /
        (applyZoomAroundPoint ⟨3, 4, 1⟩ 2 10 20).scale
      = (20 - (⟨3, 4, 1⟩ : Transform).y) / (⟨3, 4, 1⟩ : Transform).scale) :=
  ⟨⟨by norm_num [MIN_SCALE], by norm_num [MAX_SCALE]⟩,
    c3_zoom_anchor_invariance ⟨3, 4, 1⟩
      ⟨by norm_num [MIN_SCALE], by norm_num [MAX_SCALE]⟩ 2 10 20⟩

/-! ## Claim C4: scale always clamped to [0.2, 16] -/

theorem scale_clamp_mem (v : ℚ) :
    MIN_SCALE ≤ clamp v MIN_SCALE MAX_SCALE ∧
    clamp v MIN_SCALE MAX_SCALE ≤ MAX_SCALE := by
  unfold clamp
  exact ⟨le_min (by norm_num [MIN_SCALE, MAX_SCALE]) (le_max_left _ _),
    min_le_left _ _⟩

theorem applyViewportOp_scale_mem (t : Transform) (op : ViewportOp)
    (ht : MIN_SCALE ≤ t.scale ∧ t.scale ≤ MAX_SCALE) :
    MIN_SCALE ≤ (applyViewportOp t op).scale ∧
    (applyViewportOp t op).scale ≤ MAX_SCALE := by
  cases op with
  | zoomAround ns ax ay => exact scale_clamp_mem ns
  | zoomTo ns cx cy => exact scale_clamp_mem ns
  | zoomBy f cx cy => exact scale_clamp_mem (t.scale * f)
  | fit vw vh w h =>
      exact scale_clamp_mem
        (min ((vw - 48) / w) ((vh - 48) / h))
  | dragMove nx ny => exact ht

/-- C4: starting from the initial transform (scale 1), after any sequence of
`applyZoomAroundPoint`, `zoomToScale`, `zoomByFactor`, `fitToView` and
drag-pan updates the scale lies in `[0.2, 16]`; and requesting
`applyZoomAroundPoint(1000, x, y)` from any transform yields scale 16. -/
theorem c4_scale_invariant :
    (∀ ops : List ViewportOp,
      MIN_SCALE ≤ (applyViewportOps initialTransform ops).scale ∧
      (applyViewportOps initialTransform ops).scale ≤ MAX_SCALE) ∧
    (∀ (t : Transform) (x y : ℚ),
      (applyZoomAroundPoint t 1000 x y).scale = 16) := by
  constructor
  · have hgen : ∀ (ops : List ViewportOp) (t : Transform),
        MIN_SCALE ≤ t.scale ∧ t.scale ≤ MAX_SCALE →
        MIN_SCALE ≤ (applyViewportOps t ops).scale ∧
        (applyViewportOps t ops).scale ≤ MAX_SCALE := by
      intro ops
      induction ops with
      | nil => intro t ht; exact ht
      | cons op rest ih =>
          intro t ht
          exact ih (applyViewportOp t op) (applyViewportOp_scale_mem t op ht)
    intro ops
    exact hgen ops initialTransform
      (by norm_num [initialTransform, MIN_SCALE, MAX_SCALE])
  · intro t x y
    show clamp 1000 MIN_SCALE MAX_SCALE = 16
    norm_num [clamp, MIN_SCALE, MAX_SCALE]

/-! ## Claim C8: a render failure clears both outputs -/

/-- C8: when the renderer raises for the current request (the stamp equals
the counter), the scheduler clears both the SVG and ASCII outputs and sets
only the error message. -/
theorem c8_failure_clears_outputs (st : RenderState) (stamp : Nat)
    (message : String) (h : stamp = st.requestId) :
    (completeRender st stamp (.failed message)).svgMarkup = "" ∧
    (completeRender st stamp (.failed message)).asciiMarkup = "" ∧
    (completeRender st stamp (.failed message)).renderError = message := by
  subst h
  unfold completeRender
  rw [if_neg (by simp)]
  exact ⟨rfl, rfl, rfl⟩

/-- Witness for C8 at a concrete state holding stale markup. -/
theorem c8_failure_clears_outputs_witness :
    (7 : Nat) = (⟨7, "old svg", "old ascii", ""⟩ : RenderState).requestId ∧
    ((completeRender ⟨7, "old svg", "old ascii", ""⟩ 7
        (.failed "Parse error")).svgMarkup = "" ∧
      (completeRender ⟨7, "old svg", "old ascii", ""⟩ 7
        (.failed "Parse error")).asciiMarkup = "" ∧
      (completeRender ⟨7, "old svg", "old ascii", ""⟩ 7
        (.failed "Parse error")).renderError = "Parse error") :=
  ⟨rfl, c8_failure_clears_outputs ⟨7, "old svg", "old ascii", ""⟩ 7
    "Parse error" rfl⟩

/-! ## Claim C9: pointer-down during an active drag session

The claim says a second pointer-down while a session is active is ignored.
`handlePointerDown` in the source only checks `event.button !== 0` and then
overwrites `dragRef.current` unconditionally, so a primary-button
pointer-down while a session is open replaces the session. -/

/-- Counterexample to C9: with a session open for pointer 1, a primary-button
pointer-down for pointer 2 does not leave the session unchanged. -/
theorem c9_second_pointer_down_counterexample :
    handlePointerDown 0 2 5 7 ⟨3, 4, 1⟩ (some ⟨1, 0, 0, 0, 0⟩)
      ≠ some ⟨1, 0, 0, 0, 0⟩ := by
  decide

/-- C9 amended: the drag state is a single optional slot (at most one session
exists), a non-primary-button pointer-down leaves it untouched, and
pointer-up ends exactly the matching session — but a primary-button
pointer-down always installs a fresh session for the new pointer, replacing
any active one rather than being ignored. -/
theorem c9_drag_session_amended :
    (∀ (pid : Nat) (cx cy : ℚ) (t : Transform) (drag : Option DragState),
      handlePointerDown 0 pid cx cy t drag
        = some ⟨pid, cx, cy, t.x, t.y⟩) ∧
    (∀ (button pid : Nat) (cx cy : ℚ) (t : Transform)
        (drag : Option DragState),
      button ≠ 0 → handlePointerDown button pid cx cy t drag = drag) ∧
    (∀ (pid : Nat) (d : DragState), d.pointerId = pid →
      handlePointerUp pid (some d) = none) ∧
    (∀ (pid : Nat) (d : DragState), d.pointerId ≠ pid →
      handlePointerUp pid (some d) = some d) := by
  refine ⟨?_, ?_, ?_, ?_⟩
  · intro pid cx cy t drag
    simp [handlePointerDown]
  · intro button pid cx cy t drag hbtn
    simp [handlePointerDown, hbtn]
  · intro pid d hmatch
    simp [handlePointerUp, hmatch]
  · intro pid d hmatch
    simp [handlePointerUp, hmatch]

/-- Witness for the amended C9 at concrete sessions. -/
theorem c9_drag_session_amended_witness :
    (handlePointerDown 0 2 5 7 ⟨3, 4, 1⟩ (some ⟨1, 0, 0, 0, 0⟩)
        = some ⟨2, 5, 7, 3, 4⟩) ∧
    ((2 : Nat) ≠ 0 ∧
      handlePointerDown 2 9 5 7 ⟨3, 4, 1⟩ (some ⟨1, 0, 0, 0, 0⟩)
        = some ⟨1, 0, 0, 0, 0⟩) ∧
    ((⟨1, 0, 0, 0, 0⟩ : DragState).pointerId = 1 ∧
      handlePointerUp 1 (some ⟨1, 0, 0, 0, 0⟩) = none) ∧
    ((⟨1, 0, 0, 0, 0⟩ : DragState).pointerId ≠ 3 ∧
      handlePointerUp 3 (some ⟨1, 0, 0, 0, 0⟩) = some ⟨1, 0, 0, 0, 0⟩) :=
  ⟨c9_drag_session_amended.1 2 5 7 ⟨3, 4, 1⟩ (some ⟨1, 0, 0, 0, 0⟩),
    ⟨by decide, c9_drag_session_amended.2.1 2 9 5 7 ⟨3, 4, 1⟩
      (some ⟨1, 0, 0, 0, 0⟩) (by decide)⟩,
    ⟨rfl, c9_drag_session_amended.2.2.1 1 ⟨1, 0, 0, 0, 0⟩ rfl⟩,
    ⟨by decide, c9_drag_session_amended.2.2.2 3 ⟨1, 0, 0, 0, 0⟩ (by decide)⟩⟩

/-! ## Claim C2: stale-result fencing -/

theorem completeRender_requestId (st : RenderState) (stamp : Nat)
    (o : RenderOutcome) :
    (completeRender st stamp o).requestId = st.requestId := by
  unfold completeRender
  split
  · rfl
  · cases o <;> rfl

theorem completeRender_stale (st : RenderState) (stamp : Nat)
    (o : RenderOutcome) (h : stamp ≠ st.requestId) :
    completeRender st stamp o = st := by
  unfold completeRender
  rw [if_pos h]

/-- C2: a completion whose stamp is not the current counter value is
discarded without changing any state; and when two requests are issued in
order, whichever order their completions arrive in, the final state is the
one produced by the later-issued request — last-issued-wins. -/
theorem c2_stale_result_fencing :
    (∀ (st : RenderState) (stamp : Nat) (o : RenderOutcome),
      stamp ≠ st.requestId → completeRender st stamp o = st) ∧
    (∀ (st0 : RenderState) (o1 o2 : RenderOutcome),
      completeRender
          (completeRender (issueRender (issueRender st0).1).1
            (issueRender (issueRender st0).1).2 o2)
          (issueRender st0).2 o1
        = completeRender (issueRender (issueRender st0).1).1
            (issueRender (issueRender st0).1).2 o2 ∧
      completeRender
          (completeRender (issueRender (issueRender st0).1).1
            (issueRender st0).2 o1)
          (issueRender (issueRender st0).1).2 o2
        = completeRender (issueRender (issueRender st0).1).1
            (issueRender (issueRender st0).1).2 o2) := by
  refine ⟨fun st stamp o h => completeRender_stale st stamp o h, ?_⟩
  intro st0 o1 o2
  constructor
  · apply completeRender_stale
    rw [completeRender_requestId]
    simp only [issueRender]
    omega
  · have hinner : completeRender (issueRender (issueRender st0).1).1
        (issueRender st0).2 o1 = (issueRender (issueRender st0).1).1 :=
      completeRender_stale _ _ _ (by simp only [issueRender]; omega)
    rw [hinner]

/-- Witness for C2: a stale stamp is discarded at a concrete state, and in
the two-in-flight scenario the late arrival of the older result leaves the
newer result displayed. -/
theorem c2_stale_result_fencing_witness :
    ((5 : Nat) ≠ (⟨0, "", "", ""⟩ : RenderState).requestId ∧
      completeRender ⟨0, "", "", ""⟩ 5 (.svgOk "stale") = ⟨0, "", "", ""⟩) ∧
    completeRender
        (completeRender (issueRender (issueRender ⟨0, "", "", ""⟩).1).1
          (issueRender (issueRender ⟨0, "", "", ""⟩).1).2 (.svgOk "new"))
        (issueRender ⟨0, "", "", ""⟩).2 (.svgOk "old")
      = completeRender (issueRender (issueRender ⟨0, "", "", ""⟩).1).1
          (issueRender (issueRender ⟨0, "", "", ""⟩).1).2 (.svgOk "new") :=
  ⟨⟨by decide, c2_stale_result_fencing.1 ⟨0, "", "", ""⟩ 5 (.svgOk "stale")
      (by decide)⟩,
    (c2_stale_result_fencing.2 ⟨0, "", "", ""⟩ (.svgOk "old")
      (.svgOk "new")).1⟩

/-! ## Claim C6: format rejection -/

/-- C6: a token with the `v1.` head but an algorithm tag other than `d.`
fails with the unsupported-version error under any backend, before any
backend code runs; a token with no `v1.`-style head is treated as a legacy
raw payload (passed through whole), and its decode is exactly the pipeline
value on the payload's bytes — an ok result or a descriptive error, never
silently corrupted text. -/
theorem c6_format_rejection :
    (∀ backend : CompressionBackend,
      decodeDiagramToken backend (("v1.z.AAAA").data)
        = Except.error "Unsupported share link format version.") ∧
    getPayloadFromToken (("not-a-token").data)
      = Except.ok (("not-a-token").data) ∧
    (∀ backend : CompressionBackend,
      decodeDiagramToken backend (("not-a-token").data)
        = match backend.decompress [158, 139, 126, 107, 235, 104, 145, 233]
          with
          | some decompressed => Except.ok (utf8Decode decompressed)
          | none =>
              Except.error "Could not decompress share link payload.") := by
  refine ⟨?_, by rfl, ?_⟩
  · intro backend
    unfold decodeDiagramToken
    rw [show getPayloadFromToken (("v1.z.AAAA").data)
        = Except.error "Unsupported share link format version." from rfl]
    rfl
  · intro backend
    unfold decodeDiagramToken
    rw [show getPayloadFromToken (("not-a-token").data)
        = Except.ok (("not-a-token").data) from rfl]
    dsimp only [Bind.bind, Except.bind]
    rw [show base64UrlToBytes (("not-a-token").data)
        = Except.ok [158, 139, 126, 107, 235, 104, 145, 233] from rfl]

/-! ## Claim C7: debounce coalescing -/

theorem runEdits_pending (rest : List (ℚ × String)) :
    ∀ (t : ℚ) (s : String) (renders0 : List String),
      List.Chain (fun a b => a.1 ≤ b.1 ∧ b.1 < a.1 + 120) (t, s) rest →
      runEdits ⟨some (t + 120, s), renders0⟩ rest
        = ⟨some ((rest.getLastD (t, s)).1 + 120, (rest.getLastD (t, s)).2),
            renders0⟩ := by
  induction rest with
  | nil => intro t s r hchain; rfl
  | cons p rest ih =>
      intro t s r hchain
      obtain ⟨hrel, hchain2⟩ := List.chain_cons.mp hchain
      obtain ⟨t2, s2⟩ := p
      show runEdits
          (handleSourceInput t2 s2 (fireDueTimer t2 ⟨some (t + 120, s), r⟩))
          rest = _
      have hfire : fireDueTimer t2 ⟨some (t + 120, s), r⟩
          = ⟨some (t + 120, s), r⟩ := by
        unfold fireDueTimer
        dsimp only
        rw [if_neg (not_le.mpr (by linarith [hrel.2]))]
      rw [hfire]
      show runEdits ⟨some (t2 + 120, s2), r⟩ rest = _
      rw [ih t2 s2 r hchain2, List.getLastD_cons]

/-- C7: for every nonempty burst of edits, each issued less than 120 ms after
the previous one, starting with no pending timer: every edit replaces the
pending timer with one carrying its own text, and once the final deadline
passes exactly one render is issued, for the last edit's source. -/
theorem c7_debounce_coalescing (first : ℚ × String)
    (rest : List (ℚ × String)) (renders0 : List String) (fireTime : ℚ)
    (hchain : List.Chain (fun a b => a.1 ≤ b.1 ∧ b.1 < a.1 + 120) first rest)
    (hfire : (rest.getLastD first).1 + 120 ≤ fireTime) :
    fireDueTimer fireTime (runEdits ⟨none, renders0⟩ (first :: rest))
      = ⟨none, renders0 ++ [(rest.getLastD first).2]⟩ ∧
    (∀ (now : ℚ) (src : String) (st : SchedState),
      handleSourceInput now src st
        = { st with timerDeadline := some (now + 120, src) }) := by
  refine ⟨?_, fun now src st => rfl⟩
  obtain ⟨t1, s1⟩ := first
  show fireDueTimer fireTime
      (runEdits (handleSourceInput t1 s1 (fireDueTimer t1 ⟨none, renders0⟩))
        rest) = _
  have h0 : fireDueTimer t1 ⟨none, renders0⟩ = ⟨none, renders0⟩ := rfl
  rw [h0]
  show fireDueTimer fireTime
      (runEdits ⟨some (t1 + 120, s1), renders0⟩ rest) = _
  rw [runEdits_pending rest t1 s1 renders0 hchain]
  unfold fireDueTimer
  dsimp only
  rw [if_pos hfire]

/-- Witness for C7: the burst "a", "ab", "abc" at 0 ms, 50 ms, 100 ms with
the timer firing at 250 ms issues exactly one render, for "abc". -/
theorem c7_debounce_coalescing_witness :
    fireDueTimer 250
        (runEdits ⟨none, []⟩ [(0, "a"), (50, "ab"), (100, "abc")])
      = ⟨none, ["abc"]⟩ := by
  have hchain : List.Chain
      (fun (a b : ℚ × String) => a.1 ≤ b.1 ∧ b.1 < a.1 + 120)
      (0, "a") [(50, "ab"), (100, "abc")] :=
    List.Chain.cons (by norm_num)
      (List.Chain.cons (by norm_num) List.Chain.nil)
  have hfire : (([(50, "ab"), (100, "abc")] :
      List (ℚ × String)).getLastD (0, "a")).1 + 120 ≤ (250 : ℚ) := by
    norm_num [List.getLastD]
  have h := (c7_debounce_coalescing (0, "a") [(50, "ab"), (100, "abc")] []
    250 hchain hfire).1
  simpa [List.getLastD] using h

/-! ## Claim C10: URL token round-trip — form-urlencoded lemmas -/

theorem hexDigitVal_hexUpperDigit : ∀ n < 16,
    hexDigitVal (hexUpperDigit n) = some n := by
  decide

theorem percentDecodeBytes_encodeByte (b : Nat) (hb : b < 256)
    (rest : List Char) :
    percentDecodeBytes
        ('%' :: hexUpperDigit (b / 16) :: hexUpperDigit (b % 16) :: rest)
      = b :: percentDecodeBytes rest := by
  rw [percentDecodeBytes.eq_def]
  dsimp only
  rw [if_pos rfl]
  rw [hexDigitVal_hexUpperDigit (b / 16) (by omega),
    hexDigitVal_hexUpperDigit (b % 16) (by omega)]
  dsimp only
  rw [List.cons.injEq]
  exact ⟨by omega, rfl⟩

theorem percentDecodeBytes_percentEncodeBytes (bytes : List Nat)
    (hb : ∀ b ∈ bytes, b < 256) (rest : List Char) :
    percentDecodeBytes (percentEncodeBytes bytes ++ rest)
      = bytes ++ percentDecodeBytes rest := by
  induction bytes with
  | nil => rfl
  | cons b bs ih =>
      simp only [percentEncodeBytes, List.cons_append, List.append_assoc]
      rw [percentDecodeBytes_encodeByte b (hb b (by simp)),
        ih (fun x hx => hb x (by simp [hx]))]

theorem percentDecodeBytes_formUrlEncodeChar (c : Char) (rest : List Char) :
    percentDecodeBytes (formUrlEncodeChar c ++ rest)
      = utf8EncodeChar c.toNat ++ percentDecodeBytes rest := by
  unfold formUrlEncodeChar
  by_cases hsp : c = ' '
  · subst hsp
    rw [if_pos rfl]
    show percentDecodeBytes ('+' :: rest) = _
    rw [percentDecodeBytes.eq_def]
    dsimp only
    rw [if_neg (by decide), if_pos rfl]
    rfl
  · rw [if_neg hsp]
    by_cases hsafe : isFormSafeChar c
    · rw [if_pos hsafe]
      have hpc : c ≠ '%' := by
        intro h
        rw [h] at hsafe
        simp [isFormSafeChar] at hsafe
      have hpl : c ≠ '+' := by
        intro h
        rw [h] at hsafe
        simp [isFormSafeChar] at hsafe
      show percentDecodeBytes (c :: rest) = _
      rw [percentDecodeBytes.eq_def]
      dsimp only
      rw [if_neg hpc, if_neg hpl]
    · rw [if_neg hsafe]
      have hv : c.toNat < 0xD800 ∨ (0xDFFF < c.toNat ∧ c.toNat < 0x110000) :=
        c.valid
      exact percentDecodeBytes_percentEncodeBytes _
        (utf8EncodeChar_lt256 c.toNat (by omega)) rest

theorem percentDecodeBytes_formUrlEncode (s : List Char) (rest : List Char) :
    percentDecodeBytes (formUrlEncode s ++ rest)
      = utf8Encode s ++ percentDecodeBytes rest := by
  induction s with
  | nil => rfl
  | cons c cs ih =>
      show percentDecodeBytes ((formUrlEncodeChar c ++ formUrlEncode cs)
        ++ rest) = _
      rw [List.append_assoc, percentDecodeBytes_formUrlEncodeChar, ih]
      show _ = (utf8EncodeChar c.toNat ++ utf8Encode cs)
        ++ percentDecodeBytes rest
      rw [List.append_assoc]

theorem formUrlDecode_formUrlEncode (s : List Char) :
    formUrlDecode (formUrlEncode s) = s := by
  unfold formUrlDecode
  have h := percentDecodeBytes_formUrlEncode s []
  rw [List.append_nil,
    show percentDecodeBytes ([] : List Char) = [] from
      by rw [percentDecodeBytes.eq_def],
    List.append_nil] at h
  rw [h, utf8Decode_utf8Encode]

theorem hexUpperDigit_ne_amp_eq (n : Nat) :
    hexUpperDigit n ≠ '&' ∧ hexUpperDigit n ≠ '=' := by
  rcases Nat.lt_or_ge n 16 with h | h
  · interval_cases n <;> exact ⟨by decide, by decide⟩
  · unfold hexUpperDigit
    rw [List.getD_eq_default _ _ (by simpa using h)]
    exact ⟨by decide, by decide⟩

theorem percentEncodeBytes_ne_amp_eq (bytes : List Nat) :
    ∀ x ∈ percentEncodeBytes bytes, x ≠ '&' ∧ x ≠ '=' := by
  induction bytes with
  | nil => simp [percentEncodeBytes]
  | cons b bs ih =>
      intro x hx
      simp only [percentEncodeBytes, List.mem_cons] at hx
      rcases hx with rfl | rfl | rfl | hx
      · exact ⟨by decide, by decide⟩
      · exact hexUpperDigit_ne_amp_eq _
      · exact hexUpperDigit_ne_amp_eq _
      · exact ih x hx

theorem formUrlEncodeChar_ne_amp_eq (c : Char) :
    ∀ x ∈ formUrlEncodeChar c, x ≠ '&' ∧ x ≠ '=' := by
  unfold formUrlEncodeChar
  split_ifs with hsp hsafe
  · simp only [List.mem_singleton]
    rintro x rfl
    exact ⟨by decide, by decide⟩
  · simp only [List.mem_singleton]
    rintro x rfl
    constructor
    · intro h
      rw [h] at hsafe
      simp [isFormSafeChar] at hsafe
    · intro h
      rw [h] at hsafe
      simp [isFormSafeChar] at hsafe
  · exact percentEncodeBytes_ne_amp_eq _

theorem formUrlEncode_ne_amp_eq (s : List Char) :
    ∀ x ∈ formUrlEncode s, x ≠ '&' ∧ x ≠ '=' := by
  induction s with
  | nil => simp [formUrlEncode]
  | cons c cs ih =>
      intro x hx
      simp only [formUrlEncode, List.mem_append] at hx
      rcases hx with hx | hx
      · exact formUrlEncodeChar_ne_amp_eq c x hx
      · exact ih x hx

theorem serializePair_ne_nil (p : List Char × List Char) :
    serializePair p ≠ [] := by
  unfold serializePair
  simp

theorem serializePair_no_amp (p : List Char × List Char) :
    ∀ x ∈ serializePair p, x ≠ '&' := by
  intro x hx
  unfold serializePair at hx
  rcases List.mem_append.mp hx with hx | hx
  · exact (formUrlEncode_ne_amp_eq _ x hx).1
  · rcases List.mem_cons.mp hx with rfl | hx
    · decide
    · exact (formUrlEncode_ne_amp_eq _ x hx).1

theorem splitOnAmp_no_amp (seg : List Char) (h : ∀ x ∈ seg, x ≠ '&') :
    splitOnAmp seg = [seg] := by
  induction seg with
  | nil => rfl
  | cons c rest ih =>
      show splitOnAmp (c :: rest) = _
      rw [splitOnAmp.eq_def]
      dsimp only
      rw [if_neg (h c (by simp)), ih (fun x hx => h x (by simp [hx]))]

theorem splitOnAmp_append (seg rest : List Char)
    (h : ∀ x ∈ seg, x ≠ '&') :
    splitOnAmp (seg ++ '&' :: rest) = seg :: splitOnAmp rest := by
  induction seg with
  | nil =>
      show splitOnAmp ('&' :: rest) = _
      rw [splitOnAmp.eq_def]
      dsimp only
      rw [if_pos rfl]
  | cons c seg2 ih =>
      show splitOnAmp (c :: (seg2 ++ '&' :: rest)) = _
      rw [splitOnAmp.eq_def]
      dsimp only
      rw [if_neg (h c (by simp)), ih (fun x hx => h x (by simp [hx]))]

theorem splitAtFirstEq_append (a b : List Char) (h : ∀ x ∈ a, x ≠ '=') :
    splitAtFirstEq (a ++ '=' :: b) = (a, b) := by
  induction a with
  | nil =>
      show splitAtFirstEq ('=' :: b) = _
      rw [splitAtFirstEq.eq_def]
      dsimp only
      rw [if_pos rfl]
  | cons c a2 ih =>
      show splitAtFirstEq (c :: (a2 ++ '=' :: b)) = _
      rw [splitAtFirstEq.eq_def]
      dsimp only
      rw [if_neg (h c (by simp)), ih (fun x hx => h x (by simp [hx]))]

theorem parsePair_serializePair (p : List Char × List Char) :
    parsePair (serializePair p) = p := by
  unfold parsePair serializePair
  rw [splitAtFirstEq_append _ _
    (fun x hx => (formUrlEncode_ne_amp_eq _ x hx).2)]
  dsimp only
  rw [formUrlDecode_formUrlEncode, formUrlDecode_formUrlEncode]

theorem parseParams_serializeParams (ps : List (List Char × List Char)) :
    parseParams (serializeParams ps) = ps := by
  induction ps with
  | nil => rfl
  | cons p ps ih =>
      cases ps with
      | nil =>
          show parseParams (serializePair p) = [p]
          unfold parseParams
          rw [splitOnAmp_no_amp _ (serializePair_no_amp p)]
          rw [List.filter_cons_of_pos (by simpa using serializePair_ne_nil p)]
          simp only [List.filter_nil, List.map_cons, List.map_nil,
            parsePair_serializePair]
      | cons q rest =>
          show parseParams
            (serializePair p ++ '&' :: serializeParams (q :: rest)) = _
          unfold parseParams
          rw [splitOnAmp_append _ _ (serializePair_no_amp p)]
          rw [List.filter_cons_of_pos (by simpa using serializePair_ne_nil p)]
          simp only [List.map_cons, parsePair_serializePair]
          rw [List.cons.injEq]
          exact ⟨rfl, ih⟩

theorem paramsGet_append_not_mem (ps : List (List Char × List Char))
    (name value : List Char) (h : ∀ p ∈ ps, p.1 ≠ name) :
    paramsGet (ps ++ [(name, value)]) name = some value := by
  induction ps with
  | nil =>
      show paramsGet [(name, value)] name = _
      unfold paramsGet
      rw [if_pos rfl]
  | cons p rest ih =>
      show paramsGet (p :: (rest ++ [(name, value)])) name = _
      unfold paramsGet
      rw [if_neg (h p (by simp))]
      exact ih (fun q hq => h q (by simp [hq]))

theorem paramsGet_setLoop (ps : List (List Char × List Char))
    (name value : List Char) (h : ps.any (fun p => p.1 = name)) :
    paramsGet (paramsSetLoop name value ps) name = some value := by
  induction ps with
  | nil => simp at h
  | cons p rest ih =>
      show paramsGet (paramsSetLoop name value (p :: rest)) name = _
      unfold paramsSetLoop
      by_cases hp : p.1 = name
      · rw [if_pos hp]
        unfold paramsGet
        rw [if_pos rfl]
      · rw [if_neg hp]
        unfold paramsGet
        rw [if_neg hp]
        refine ih ?_
        rcases List.any_eq_true.mp h with ⟨q, hq, hqname⟩
        rcases List.mem_cons.mp hq with rfl | hq
        · exact absurd (by simpa using hqname) hp
        · exact List.any_eq_true.mpr ⟨q, hq, hqname⟩

theorem paramsGet_paramsSet (ps : List (List Char × List Char))
    (name value : List Char) :
    paramsGet (paramsSet ps name value) name = some value := by
  unfold paramsSet
  by_cases h : ps.any (fun p => p.1 = name)
  · rw [if_pos h]
    exact paramsGet_setLoop ps name value h
  · rw [if_neg h]
    refine paramsGet_append_not_mem ps name value ?_
    intro p hp hpname
    exact h (List.any_eq_true.mpr ⟨p, hp, by simpa using hpname⟩)

theorem paramsGet_paramsDelete (ps : List (List Char × List Char))
    (name : List Char) :
    paramsGet (paramsDelete ps name) name = none := by
  induction ps with
  | nil => rfl
  | cons p rest ih =>
      unfold paramsDelete
      rw [List.filter_cons]
      by_cases hp : p.1 = name
      · rw [if_neg (by simpa using hp)]
        exact ih
      · rw [if_pos (by simpa using hp)]
        unfold paramsGet
        rw [if_neg hp]
        exact ih

/-- C10: for every URL and every token of the share-token form (`v1.d.`
followed by base64url characters), reading the diagram token back from the
URL produced by writing it returns exactly that token, and the produced
URL's query string carries no `diagram` parameter — the token lives only in
the fragment.  (The source clones with `new URL(url.toString())`, so the
input URL object is untouched; the model is pure, making that automatic.) -/
theorem c10_url_token_round_trip (url : UrlModel) (payload : List Char)
    (_hpayload : ∀ c ∈ payload, isBase64UrlChar c = true) :
    readDiagramTokenFromUrl
        (writeDiagramTokenToUrl url (shareTokenHead ++ payload))
      = some (shareTokenHead ++ payload) ∧
    paramsGet (writeDiagramTokenToUrl url (shareTokenHead ++ payload)).query
      diagramParamName = none := by
  constructor
  · unfold readDiagramTokenFromUrl writeDiagramTokenToUrl
    dsimp only
    rw [parseParams_serializeParams, paramsGet_paramsSet]
  · unfold writeDiagramTokenToUrl
    dsimp only
    rw [paramsGet_paramsDelete]

/-- Witness for C10 at a URL that already carries a `diagram` parameter in
both its query and its fragment, plus other parameters. -/
theorem c10_url_token_round_trip_witness :
    (∀ c ∈ ("AbC-_9").data, isBase64UrlChar c = true) ∧
    (readDiagramTokenFromUrl
        (writeDiagramTokenToUrl
          ⟨[(("diagram").data, ("old").data)],
            ("x=1&diagram=zzz&y=%20").data⟩
          (shareTokenHead ++ ("AbC-_9").data))
      = some (shareTokenHead ++ ("AbC-_9").data) ∧
    paramsGet (writeDiagramTokenToUrl
          ⟨[(("diagram").data, ("old").data)],
            ("x=1&diagram=zzz&y=%20").data⟩
          (shareTokenHead ++ ("AbC-_9").data)).query diagramParamName
      = none) :=
  ⟨by decide, c10_url_token_round_trip _ _ (by decide)⟩

end MermaidStudio
